import Mathlib

/-!
Verification of the core of the DistributedCacheSystem repository: a shallow
embedding of its per-node cache (`RobustCache` with LRU/LFU eviction policies),
the request coalescer, the write-through and safe write-back writers, and the
consistent-hash ring, together with proofs and refutations of the specified
properties.

Python dictionaries are embedded as association lists (first match wins,
update-in-place, insertion order preserved), Python lists as Lean lists, and
raised exceptions as `Except` / `Option` results.
-/

namespace DCache

/-! ### Association-list primitives mirroring Python dict / list operations -/

/-- Lookup in an association list: `d[k]` / `d.get(k)` on a Python dict. -/
def alookup [DecidableEq α] (k : α) : List (α × β) → Option β
  | [] => none
  | p :: t => if p.1 = k then some p.2 else alookup k t

/-- Assignment `d[k] = v` on a Python dict: replaces the first binding of `k`
in place, or appends a new binding at the end (insertion order). -/
def aset [DecidableEq α] (k : α) (v : β) : List (α × β) → List (α × β)
  | [] => [(k, v)]
  | p :: t => if p.1 = k then (k, v) :: t else p :: aset k v t

/-- Deletion `del d[k]` on a Python dict: removes the first binding of `k`
(no-op if absent, where Python would raise `KeyError`). -/
def aerase [DecidableEq α] (k : α) : List (α × β) → List (α × β)
  | [] => []
  | p :: t => if p.1 = k then t else p :: aerase k t

/-- `l.remove(a)` on a Python list: removes the first occurrence of `a`
(no-op if absent, where Python would raise `ValueError`). -/
def lremove [DecidableEq α] (a : α) : List α → List α
  | [] => []
  | x :: t => if x = a then t else x :: lremove a t


/-! ### The LRU eviction policy (`src/implementations/lru_policy.py`)

`LRUPolicy` keeps a plain Python list `order` of resident keys, least-recent
first. -/

namespace LRUPolicy

/-- `on_access`: remove the key from `order` if present, then append it. -/
def on_access (order : List String) (k : String) : List String :=
  (if k ∈ order then lremove k order else order) ++ [k]

/-- `evict`: `order.pop(0)` when non-empty, else `None`; returns the victim
together with the updated order list. -/
def evict : List String → Option String × List String
  | [] => (none, [])
  | x :: t => (some x, t)

end LRUPolicy

/-! ### The per-node cache (`src/src/cache.py`)

A `RobustCache` with the LRU policy: `storage` is the key → value dict and
`order` the policy state. The key type is `String` (the routing surface fixes
keys as strings). -/

structure RobustCache (V : Type) where
  capacity : Nat
  storage : List (String × V)
  order : List String
  deriving Repr, DecidableEq

/-- Python truthiness of an `Optional[str]`: `None` and the empty string are
falsy. This is the test `if victim:` performs in `_put_internal`. -/
def pyTruthyStr : Option String → Bool
  | none => false
  | some s => !s.isEmpty

namespace RobustCache

variable {V : Type}

/-- `_put_internal`: evict (and delete from storage when the victim is truthy)
if the key is new and the cache is full; then store the value and touch the
policy. -/
def put_internal (c : RobustCache V) (k : String) (v : V) : RobustCache V :=
  let c1 :=
    if (alookup k c.storage).isNone ∧ c.capacity ≤ c.storage.length then
      let ev := LRUPolicy.evict c.order
      let storage1 :=
        if pyTruthyStr ev.1 then aerase (ev.1.getD "") c.storage else c.storage
      { c with storage := storage1, order := ev.2 }
    else c
  { c1 with storage := aset k v c1.storage,
            order := LRUPolicy.on_access c1.order k }

/-- `put` on a node with no writer configured: just the internal insert. -/
def put (c : RobustCache V) (k : String) (v : V) : RobustCache V :=
  put_internal c k v

/-- `get` on a node with no loader configured: on a hit touch the policy and
return the value; on a miss return `None` and leave the node unchanged. -/
def get (c : RobustCache V) (k : String) : Option V × RobustCache V :=
  match alookup k c.storage with
  | some v => (some v, { c with order := LRUPolicy.on_access c.order k })
  | none => (none, c)

end RobustCache

/-- Capacity-1 node; first insert the falsy key `""`, then the key `"x"`.
`_put_internal` evicts `""` from the policy but the `if victim:` test is
false for the empty string, so the storage entry survives. -/
def falsyVictimCache : RobustCache Nat :=
  RobustCache.put (RobustCache.put ⟨1, [], []⟩ "" 1) "x" 2

/-! ### The write-through writer (`src/implementations/write_through_writer.py`)

`write` calls `db.set` synchronously and re-raises its exception; the database
adapter is modelled by a function giving each `set` call's outcome. -/

namespace WriteThroughWriter

variable {V E : Type}

/-- `write`: call `self.db.set(key, value)`; on failure log and re-raise. -/
def write (dbSet : String → V → Except E Unit) (k : String) (v : V) :
    Except E Unit :=
  match dbSet k v with
  | .ok _ => .ok ()
  | .error e => .error e

/-- A write-through writer's observable interaction with the database: the
ordered log of `set` calls it has issued. -/
def delete (dbLog : List (String × V)) (_k : String) :
    Except E Unit × List (String × V) :=
  (.ok (), dbLog)

end WriteThroughWriter

namespace RobustCache

variable {V E : Type}

/-- `put` on a node configured with a write-through writer: `writer.write`
first (its exception aborts the update and propagates), then the internal
insert. -/
def putWT (dbSet : String → V → Except E Unit) (c : RobustCache V)
    (k : String) (v : V) : Except E Unit × RobustCache V :=
  match WriteThroughWriter.write dbSet k v with
  | .error e => (.error e, c)
  | .ok _ => (.ok (), c.put_internal k v)

end RobustCache

/-! ### The safe write-back writer (`src/implementations/safe_write_back_writer.py`)

`write` enqueues on an unbounded FIFO; a single worker dequeues and calls
`db.set` one order at a time, catching (and only logging) `set` failures;
`close` enqueues the stop sentinel and joins the worker, which exits only
after the sentinel, i.e. after every earlier order was handed to `db.set`.
State: the pending FIFO `queue` and `db`, the ordered log of `db.set` calls
issued by the worker. -/

structure WbState (K V : Type) where
  queue : List (K × V)
  db : List (K × V)
  deriving Repr, DecidableEq

namespace SafeWriteBackWriter

variable {K V : Type}

/-- `write(key, value)`: `self.queue.put((key, value))` — FIFO enqueue. -/
def write (s : WbState K V) (k : K) (v : V) : WbState K V :=
  { s with queue := s.queue ++ [(k, v)] }

/-- One iteration of the `_flusher` worker on a non-empty queue: dequeue the
oldest order and hand it to `db.set` (a failing `set` is caught and logged,
so it still counts as a delivery attempt and the worker continues). -/
def flushOne (s : WbState K V) : WbState K V :=
  match s.queue with
  | [] => s
  | kv :: rest => { queue := rest, db := s.db ++ [kv] }

/-- `close()`: enqueue `STOP_SIGNAL` and join the worker. The sentinel sits
behind every pending order in the FIFO, so by the time the worker observes it
and exits, every pending order has been handed to `db.set`, in FIFO order. -/
def close (s : WbState K V) : WbState K V :=
  { queue := [], db := s.db ++ s.queue }

/-- `delete(key)`: `pass` — returns normally, touches nothing. -/
def delete (s : WbState K V) (_k : K) : Except Empty Unit × WbState K V :=
  (.ok (), s)

/-- Events visible to a write-back writer before `close`: a `write` call
returning, or the worker flushing one order (their interleaving is
arbitrary). -/
inductive Op (K V : Type) where
  | write (k : K) (v : V)
  | flush

/-- Run an interleaving of `write` calls and worker steps. -/
def runOps : List (Op K V) → WbState K V → WbState K V
  | [], s => s
  | .write k v :: rest, s => runOps rest (write s k v)
  | .flush :: rest, s => runOps rest (flushOne s)

/-- The `write` calls of an interleaving, in call order. -/
def writesOf : List (Op K V) → List (K × V)
  | [] => []
  | .write k v :: rest => (k, v) :: writesOf rest
  | .flush :: rest => writesOf rest

end SafeWriteBackWriter

/-! ### The LFU eviction policy (`src/implementations/lfu_policy.py`)

State: `key_freq : key → frequency`, `freq_keys : frequency → OrderedDict of
keys` (insertion order = LRU order within the bucket, payloads are `None`),
and the cached `min_freq`. Buckets live behind a `defaultdict`; in the states
reached by completed operations every bucket consulted is present, so the
defaultdict's create-on-read is modelled by `Option.getD []`. -/

structure LFUState where
  key_freq : List (String × Nat)
  freq_keys : List (Nat × List String)
  min_freq : Nat
  deriving Repr, DecidableEq

namespace LFUPolicy

/-- Constructor: empty maps, `min_freq = 0`. -/
def init : LFUState := ⟨[], [], 0⟩

/-- `on_access`: bump an existing key out of its old bucket (dropping the
bucket if emptied, advancing `min_freq` when it was that bucket) into the next
one; a new key gets frequency 1 and resets `min_freq` to 1. The final dict
assignment `freq_keys[new_freq][key] = None` keeps the position of an already
present key, hence the membership guard. -/
def on_access (s : LFUState) (k : String) : LFUState :=
  match alookup k s.key_freq with
  | some oldFreq =>
    let bucket := (alookup oldFreq s.freq_keys).getD []
    let bucket' := lremove k bucket
    let fk := aset oldFreq bucket' s.freq_keys
    let fk2 := if bucket'.isEmpty then aerase oldFreq fk else fk
    let mf := if bucket'.isEmpty ∧ s.min_freq = oldFreq then s.min_freq + 1
              else s.min_freq
    let newFreq := oldFreq + 1
    let nb := (alookup newFreq fk2).getD []
    let nb' := if k ∈ nb then nb else nb ++ [k]
    { key_freq := aset k newFreq s.key_freq,
      freq_keys := aset newFreq nb' fk2,
      min_freq := mf }
  | none =>
    let nb := (alookup 1 s.freq_keys).getD []
    let nb' := if k ∈ nb then nb else nb ++ [k]
    { key_freq := aset k 1 s.key_freq,
      freq_keys := aset 1 nb' s.freq_keys,
      min_freq := 1 }

/-- `evict`: `None` on an empty policy; otherwise pop the oldest key of the
`min_freq` bucket (dropping the bucket if emptied — `min_freq` is NOT
recomputed) and remove the key from `key_freq`. When `min_freq` points at a
missing bucket, `popitem` on the freshly defaultdict-created empty bucket
raises `KeyError`: that crash is the outer `none`. -/
def evict (s : LFUState) : Option (Option String × LFUState) :=
  if s.key_freq.isEmpty then some (none, s)
  else
    match (alookup s.min_freq s.freq_keys).getD [] with
    | [] => none
    | victim :: rest =>
      let fk := aset s.min_freq rest s.freq_keys
      let fk2 := if rest.isEmpty then aerase s.min_freq fk else fk
      some (some victim,
        { key_freq := aerase victim s.key_freq,
          freq_keys := fk2,
          min_freq := s.min_freq })

/-- States reachable from a fresh `LFUPolicy` by completed (non-raising)
operations. -/
inductive Reach : LFUState → Prop
  | start : Reach init
  | step_access (s : LFUState) (k : String) : Reach s → Reach (on_access s k)
  | step_evict (s s' : LFUState) (r : Option String) :
      Reach s → evict s = some (r, s') → Reach s'

/-- The multiset `key_freq.values()`. -/
def freqValues (s : LFUState) : List Nat := s.key_freq.map Prod.snd

/-- Structural invariant of LFU states reached by completed operations:
buckets are non-empty and duplicate-free, map keys are unique, the two maps
are mutually consistent, all frequencies are ≥ 1, and `min_freq` is a lower
bound of all frequencies. (`min_freq` need not be attained: `evict` never
recomputes it.) -/
structure WF (s : LFUState) : Prop where
  buckets_ne : ∀ p ∈ s.freq_keys, p.2 ≠ []
  fk_nodup : (s.freq_keys.map Prod.fst).Nodup
  kf_nodup : (s.key_freq.map Prod.fst).Nodup
  buckets_nodup : ∀ p ∈ s.freq_keys, p.2.Nodup
  bucket_freq : ∀ f b, alookup f s.freq_keys = some b →
    ∀ k ∈ b, alookup k s.key_freq = some f
  freq_bucket : ∀ k f, alookup k s.key_freq = some f →
    ∃ b, alookup f s.freq_keys = some b ∧ k ∈ b
  min_le : ∀ k f, alookup k s.key_freq = some f → s.min_freq ≤ f
  one_le : ∀ k f, alookup k s.key_freq = some f → 1 ≤ f

end LFUPolicy

/-- The state reached by `on_access a; on_access a; on_access b` from a fresh
LFU policy: a has frequency 2, b has frequency 1, `min_freq = 1`. -/
def lfuCexPre : LFUState :=
  LFUPolicy.on_access (LFUPolicy.on_access (LFUPolicy.on_access LFUPolicy.init "a") "a") "b"

/-- The state after then evicting b: `key_freq = {a: 2}` but `min_freq` is
still 1 — `evict` never recomputes it. -/
def lfuCex : LFUState := ⟨[("a", 2)], [(2, ["a"])], 1⟩

/-! ### The request coalescer (`src/utils/request_coalescer.py`)

`active_requests` maps an in-flight key to its window's latch (here: the set
of in-flight keys), `results`/`errors` hold outcomes. Values are `Option V`
because the cache stores the loader's `Optional` result, and `results.get`
collapses "absent" and "stored `None`" to `None`. -/

structure CoState (K V E : Type) where
  active : List K
  results : List (K × Option V)
  errors : List (K × E)
  deriving Repr, DecidableEq

namespace RequestCoalescer

variable {K V E : Type} [DecidableEq K]

/-- The mutex-protected prologue of `do`: a caller finding `key` in
`active_requests` becomes a follower (`false`); otherwise it installs a fresh
record and becomes the leader (`true`), the one that runs the thunk. -/
def arrive (s : CoState K V E) (k : K) : CoState K V E × Bool :=
  if k ∈ s.active then (s, false)
  else ({ s with active := k :: s.active }, true)

/-- The leader's epilogue: store the thunk's outcome (`results[key] = result`
on success, `errors[key] = e` on a raise), then — in the `finally` block —
set the event and delete the in-flight record. Stored results and errors are
never deleted. The leader itself returns `result` / re-raises directly. -/
def publish (s : CoState K V E) (k : K) (outcome : Except E (Option V)) :
    CoState K V E :=
  let s1 :=
    match outcome with
    | .ok v => { s with results := aset k v s.results }
    | .error e => { s with errors := aset k e s.errors }
  { s1 with active := lremove k s1.active }

/-- What a follower observes once its wait returns: a stored error for the key
is re-raised, else `self.results.get(key)`. -/
def followerRead (s : CoState K V E) (k : K) : Except E (Option V) :=
  match alookup k s.errors with
  | some e => .error e
  | none => .ok ((alookup k s.results).getD none)

/-- `n` callers arriving on `key` during one in-flight window, in some serial
order imposed by the mutex; returns the final state and how many callers
became the leader (= how many thunk invocations were started). -/
def arrivals (s : CoState K V E) (k : K) : Nat → CoState K V E × Nat
  | 0 => (s, 0)
  | n + 1 =>
    let a := arrive s k
    let rest := arrivals a.1 k n
    (rest.1, rest.2 + (if a.2 then 1 else 0))

end RequestCoalescer

/-- Coalescer state after a first, completed window on key 0 whose thunk
raised error 1: the in-flight record is gone but `errors[0] = 1` remains. -/
def coFirstWindow : CoState Nat Nat Nat :=
  RequestCoalescer.publish (RequestCoalescer.arrive ⟨[], [], []⟩ 0).1 0
    (.error 1)

/-- Coalescer state after a second, fresh window on key 0 whose thunk
succeeded with the value 2: `results[0] = 2` now, but the stale
`errors[0] = 1` from the first window was never deleted. -/
def coSecondWindow : CoState Nat Nat Nat :=
  RequestCoalescer.publish (RequestCoalescer.arrive coFirstWindow 0).1 0
    (.ok (some 2))

/-! ### The consistent-hash ring (`src/distribution/consistent_hashing.py`)

`ring` maps integer positions to node labels, `sorted_keys` is the sorted
position list. The MD5 position hash is an external collaborator here,
abstracted as a function `H`. -/

structure ConsistentHashing where
  ring : List (Nat × String)
  sorted_keys : List Nat
  deriving Repr, DecidableEq

namespace ConsistentHashing

/-- `bisect.bisect(sorted_keys, h)` on a sorted list: the insertion point
after all entries ≤ `h`, i.e. the index of the first entry strictly greater
than `h`. -/
def bisect (l : List Nat) (x : Nat) : Nat :=
  (l.takeWhile (fun y => y ≤ x)).length

/-- `get_node(key)` with the MD5 hash abstracted as `H`: `None` on an empty
ring; else binary-search `sorted_keys` for the first position after `H key`,
wrap to index 0 past the end, and return that position's label. -/
def get_node (H : String → Nat) (r : ConsistentHashing) (key : String) :
    Option String :=
  if r.ring.isEmpty then none
  else
    let hashed := H key
    let idx := bisect r.sorted_keys hashed
    let idx2 := if idx = r.sorted_keys.length then 0 else idx
    match r.sorted_keys.get? idx2 with
    | some pos => alookup pos r.ring
    | none => none

/-- Modelled from the spec: if the ring is empty return absent; else return
the label mapped to the first ring position strictly greater than `H(key)` in
the sorted position list, or the label of the smallest position when no
position is strictly greater (wrap-around). -/
def get_node_spec (H : String → Nat) (r : ConsistentHashing) (key : String) :
    Option String :=
  if r.sorted_keys.isEmpty then none
  else
    match (r.sorted_keys.filter (fun p => H key < p)).head? with
    | some pos => alookup pos r.ring
    | none => r.sorted_keys.min?.bind (fun pos => alookup pos r.ring)

/-- Well-formedness maintained by `add_node`/`remove_node`: the position list
is sorted, and it is empty exactly when the position → label map is. -/
def WF (r : ConsistentHashing) : Prop :=
  r.sorted_keys.Pairwise (· ≤ ·) ∧ (r.ring.isEmpty ↔ r.sorted_keys.isEmpty)

end ConsistentHashing

/-! ## Supporting lemmas -/

section AssocLemmas

variable {α : Type _} {β : Type _} [DecidableEq α]

theorem alookup_aset_self (k : α) (v : β) (l : List (α × β)) :
    alookup k (aset k v l) = some v := by
  induction l with
  | nil => simp [aset, alookup]
  | cons p t ih =>
    by_cases h : p.1 = k
    · simp [aset, alookup, h]
    · simp [aset, alookup, h, ih]

theorem alookup_aset_ne (k k' : α) (v : β) (l : List (α × β)) (h : k' ≠ k) :
    alookup k' (aset k v l) = alookup k' l := by
  have hne : k ≠ k' := Ne.symm h
  induction l with
  | nil => simp [aset, alookup, hne]
  | cons p t ih =>
    by_cases hp : p.1 = k
    · subst hp
      simp [aset, alookup, hne]
    · simp [aset, alookup, hp, ih]

theorem alookup_aerase_ne (k k' : α) (l : List (α × β)) (h : k' ≠ k) :
    alookup k' (aerase k l) = alookup k' l := by
  have hne : k ≠ k' := Ne.symm h
  induction l with
  | nil => simp [aerase]
  | cons p t ih =>
    by_cases hp : p.1 = k
    · subst hp
      simp [aerase, alookup, hne]
    · simp [aerase, alookup, hp, ih]

theorem mem_aset (k : α) (v : β) (l : List (α × β)) (p : α × β)
    (h : p ∈ aset k v l) : p = (k, v) ∨ p ∈ l := by
  induction l with
  | nil => simpa [aset] using h
  | cons q t ih =>
    by_cases hq : q.1 = k
    · simp only [aset, hq, if_pos rfl] at h
      rcases List.mem_cons.mp h with h | h
      · exact Or.inl h
      · exact Or.inr (List.mem_cons_of_mem _ h)
    · simp only [aset, hq, if_neg hq] at h
      rcases List.mem_cons.mp h with h | h
      · exact Or.inr (h ▸ List.mem_cons_self _ _)
      · rcases ih h with h | h
        · exact Or.inl h
        · exact Or.inr (List.mem_cons_of_mem _ h)

theorem mem_aerase (k : α) (l : List (α × β)) (p : α × β)
    (h : p ∈ aerase k l) : p ∈ l := by
  induction l with
  | nil => simp [aerase] at h
  | cons q t ih =>
    by_cases hq : q.1 = k
    · simp only [aerase, if_pos hq] at h
      exact List.mem_cons_of_mem _ h
    · simp only [aerase, if_neg hq] at h
      rcases List.mem_cons.mp h with h | h
      · exact h ▸ List.mem_cons_self _ _
      · exact List.mem_cons_of_mem _ (ih h)

theorem keys_nodup_aset (k : α) (v : β) (l : List (α × β))
    (h : (l.map Prod.fst).Nodup) : ((aset k v l).map Prod.fst).Nodup := by
  induction l with
  | nil => simp [aset]
  | cons q t ih =>
    simp only [List.map_cons, List.nodup_cons] at h
    by_cases hq : q.1 = k
    · subst hq
      simpa [aset, List.nodup_cons] using h
    · simp only [aset, if_neg hq, List.map_cons, List.nodup_cons]
      refine ⟨?_, ih h.2⟩
      intro hmem
      simp only [List.mem_map] at hmem
      obtain ⟨p, hp, hfst⟩ := hmem
      rcases mem_aset k v t p hp with rfl | hp'
      · exact hq hfst.symm
      · exact h.1 (List.mem_map.mpr ⟨p, hp', hfst⟩)

theorem keys_nodup_aerase (k : α) (l : List (α × β))
    (h : (l.map Prod.fst).Nodup) : ((aerase k l).map Prod.fst).Nodup := by
  induction l with
  | nil => simp [aerase]
  | cons q t ih =>
    simp only [List.map_cons, List.nodup_cons] at h
    by_cases hq : q.1 = k
    · simpa [aerase, hq] using h.2
    · simp only [aerase, if_neg hq, List.map_cons, List.nodup_cons]
      refine ⟨?_, ih h.2⟩
      intro hmem
      simp only [List.mem_map] at hmem
      obtain ⟨p, hp, hfst⟩ := hmem
      exact h.1 (List.mem_map.mpr ⟨p, mem_aerase k t p hp, hfst⟩)

theorem alookup_eq_none_of_not_mem_keys {k : α} {l : List (α × β)}
    (h : k ∉ l.map Prod.fst) : alookup k l = none := by
  induction l with
  | nil => rfl
  | cons q t ih =>
    simp only [List.map_cons, List.mem_cons, not_or] at h
    have hq : ¬ q.1 = k := fun hh => h.1 hh.symm
    simp only [alookup, if_neg hq]
    exact ih h.2

theorem mem_keys_of_alookup_eq_some {k : α} {v : β} {l : List (α × β)}
    (h : alookup k l = some v) : k ∈ l.map Prod.fst := by
  by_contra hk
  rw [alookup_eq_none_of_not_mem_keys hk] at h
  exact Option.noConfusion h

theorem alookup_aerase_self (k : α) (l : List (α × β))
    (h : (l.map Prod.fst).Nodup) : alookup k (aerase k l) = none := by
  induction l with
  | nil => simp [aerase, alookup]
  | cons q t ih =>
    simp only [List.map_cons, List.nodup_cons] at h
    by_cases hq : q.1 = k
    · subst hq
      have he : aerase q.1 (q :: t) = t := by simp [aerase]
      rw [he]
      exact alookup_eq_none_of_not_mem_keys h.1
    · simp only [aerase, if_neg hq, alookup, if_neg hq]
      exact ih h.2

theorem mem_of_alookup_eq_some {k : α} {v : β} {l : List (α × β)}
    (h : alookup k l = some v) : (k, v) ∈ l := by
  induction l with
  | nil => simp [alookup] at h
  | cons q t ih =>
    by_cases hq : q.1 = k
    · simp only [alookup, if_pos hq] at h
      have hv := Option.some.inj h
      rcases q with ⟨a, b⟩
      simp only at hq hv
      subst hq
      subst hv
      exact List.mem_cons_self _ _
    · simp only [alookup, if_neg hq] at h
      exact List.mem_cons_of_mem _ (ih h)

theorem mem_lremove_of_mem {a b : α} {l : List α}
    (h : a ∈ l) (hne : a ≠ b) : a ∈ lremove b l := by
  induction l with
  | nil => simp at h
  | cons x t ih =>
    by_cases hx : x = b
    · simp only [lremove, if_pos hx]
      rcases List.mem_cons.mp h with rfl | h
      · exact absurd hx hne
      · exact h
    · simp only [lremove, if_neg hx]
      rcases List.mem_cons.mp h with rfl | h
      · exact List.mem_cons_self _ _
      · exact List.mem_cons_of_mem _ (ih h)

theorem mem_of_mem_lremove {a b : α} {l : List α}
    (h : a ∈ lremove b l) : a ∈ l := by
  induction l with
  | nil => simp [lremove] at h
  | cons x t ih =>
    by_cases hx : x = b
    · simp only [lremove, if_pos hx] at h
      exact List.mem_cons_of_mem _ h
    · simp only [lremove, if_neg hx] at h
      rcases List.mem_cons.mp h with rfl | h
      · exact List.mem_cons_self _ _
      · exact List.mem_cons_of_mem _ (ih h)

theorem nodup_lremove (a : α) (l : List α) (h : l.Nodup) :
    (lremove a l).Nodup := by
  induction l with
  | nil => simp [lremove]
  | cons x t ih =>
    simp only [List.nodup_cons] at h
    by_cases hx : x = a
    · simpa [lremove, hx] using h.2
    · simp only [lremove, if_neg hx, List.nodup_cons]
      refine ⟨?_, ih h.2⟩
      intro hmem
      exact h.1 (mem_of_mem_lremove hmem)

theorem not_mem_lremove_self (a : α) (l : List α) (h : l.Nodup) :
    a ∉ lremove a l := by
  induction l with
  | nil => simp [lremove]
  | cons x t ih =>
    simp only [List.nodup_cons] at h
    by_cases hx : x = a
    · subst hx
      simpa [lremove] using h.1
    · simp only [lremove, if_neg hx]
      intro hmem
      rcases List.mem_cons.mp hmem with rfl | hmem
      · exact hx rfl
      · exact ih h.2 hmem

theorem lremove_eq_nil {a : α} {l : List α} (h : lremove a l = []) :
    l = [] ∨ l = [a] := by
  cases l with
  | nil => exact Or.inl rfl
  | cons x t =>
    by_cases hx : x = a
    · simp only [lremove, if_pos hx] at h
      subst h
      exact Or.inr (by rw [hx])
    · simp [lremove, if_neg hx] at h

theorem lremove_append_right (a : α) (u : List α) (h : a ∉ u) :
    lremove a (u ++ [a]) = u := by
  induction u with
  | nil => simp [lremove]
  | cons x t ih =>
    simp only [List.mem_cons, not_or] at h
    have hx : ¬ x = a := fun hh => h.1 hh.symm
    show (if x = a then t ++ [a] else x :: lremove a (t ++ [a])) = x :: t
    rw [if_neg hx, ih h.2]

theorem alookup_isSome_of_mem {p : α × β} {l : List (α × β)} (h : p ∈ l) :
    ∃ v, alookup p.1 l = some v := by
  induction l with
  | nil => simp at h
  | cons q t ih =>
    by_cases hq : q.1 = p.1
    · exact ⟨q.2, by simp [alookup, hq]⟩
    · rcases List.mem_cons.mp h with rfl | h2
      · exact absurd rfl hq
      · simpa [alookup, hq] using ih h2

theorem nodup_append_singleton {l : List α} {a : α}
    (h : l.Nodup) (ha : a ∉ l) : (l ++ [a]).Nodup := by
  induction l with
  | nil => simp
  | cons x t ih =>
    simp only [List.mem_cons, not_or] at ha
    simp only [List.nodup_cons] at h
    simp only [List.cons_append, List.nodup_cons]
    refine ⟨?_, ih h.2 ha.2⟩
    intro hx
    rcases List.mem_append.mp hx with hx | hx
    · exact h.1 hx
    · simp only [List.mem_singleton] at hx
      exact ha.1 hx.symm

end AssocLemmas

namespace SafeWriteBackWriter

variable {K V : Type}

theorem db_append_queue_runOps (ops : List (Op K V)) :
    ∀ s : WbState K V,
      (runOps ops s).db ++ (runOps ops s).queue =
        s.db ++ s.queue ++ writesOf ops := by
  induction ops with
  | nil => intro s; simp [runOps, writesOf]
  | cons op rest ih =>
    intro s
    cases op with
    | write k v =>
      simp only [runOps, writesOf]
      rw [ih]
      simp [write, List.append_assoc]
    | flush =>
      simp only [runOps, writesOf]
      rw [ih]
      cases hq : s.queue with
      | nil => simp [flushOne, hq]
      | cons kv rest' => simp [flushOne, hq]

end SafeWriteBackWriter

namespace RequestCoalescer

variable {K V E : Type} [DecidableEq K]

theorem arrivals_of_mem (s : CoState K V E) (k : K) (hk : k ∈ s.active) :
    ∀ n, arrivals s k n = (s, 0) := by
  intro n
  induction n with
  | zero => rfl
  | succ m ih =>
    simp only [arrivals, arrive, if_pos hk]
    rw [ih]
    simp

end RequestCoalescer

section RingLemmas

theorem get?_takeWhile_length (p : α → Bool) (l : List α) :
    l.get? (l.takeWhile p).length = (l.dropWhile p).head? := by
  have hsplit : l.takeWhile p ++ l.dropWhile p = l :=
    List.takeWhile_append_dropWhile p l
  calc l.get? (l.takeWhile p).length
      = (l.takeWhile p ++ l.dropWhile p).get? (l.takeWhile p).length := by
        rw [hsplit]
    _ = (l.dropWhile p).head? := by
        rw [List.get?_append_right (le_refl _)]
        rw [Nat.sub_self]
        cases l.dropWhile p <;> rfl

theorem dropWhile_le_head_eq_filter_lt_head (h : Nat) (l : List Nat) :
    (l.dropWhile (fun y => y ≤ h)).head? =
      (l.filter (fun y => h < y)).head? := by
  induction l with
  | nil => rfl
  | cons x t ih =>
    by_cases hx : x ≤ h
    · have hnx : ¬ h < x := Nat.not_lt.mpr hx
      simp [List.dropWhile_cons, List.filter_cons, hx, hnx, ih]
    · have hpx : h < x := Nat.lt_of_not_le hx
      simp [List.dropWhile_cons, List.filter_cons, hx, hpx]

theorem min?_eq_head?_of_pairwise_le (l : List Nat)
    (h : l.Pairwise (· ≤ ·)) : l.min? = l.head? := by
  cases l with
  | nil => rfl
  | cons x t =>
    rw [List.head?_cons, List.min?_cons]
    rcases List.pairwise_cons.mp h with ⟨hx, _⟩
    cases hm : t.min? with
    | none => simp
    | some m =>
      have hmem : m ∈ t := List.min?_mem (fun a b => min_choice a b) hm
      simp [hm, Nat.min_eq_left (hx m hmem)]

end RingLemmas

namespace LFUPolicy

theorem bucket_nodup_of_alookup {s : LFUState} (h : WF s) {f : Nat}
    {b : List String} (hb : alookup f s.freq_keys = some b) : b.Nodup :=
  h.buckets_nodup (f, b) (mem_of_alookup_eq_some hb)

theorem wf_init : WF init := by
  refine ⟨?_, ?_, ?_, ?_, ?_, ?_, ?_, ?_⟩ <;> simp [init, alookup]

theorem wf_on_access (s : LFUState) (k : String) (h : WF s) :
    WF (on_access s k) := by
  cases hk : alookup k s.key_freq with
  | none =>
    have hknb : k ∉ (alookup 1 s.freq_keys).getD [] := by
      cases h1 : alookup 1 s.freq_keys with
      | none => simp
      | some b =>
        simp only [Option.getD_some]
        intro hmem
        have h2 := h.bucket_freq 1 b h1 k hmem
        rw [hk] at h2
        exact Option.noConfusion h2
    have hnbnodup : ((alookup 1 s.freq_keys).getD []).Nodup := by
      cases h1 : alookup 1 s.freq_keys with
      | none => simp
      | some b => simpa using bucket_nodup_of_alookup h h1
    have heq : on_access s k =
        { key_freq := aset k 1 s.key_freq,
          freq_keys :=
            aset 1 ((alookup 1 s.freq_keys).getD [] ++ [k]) s.freq_keys,
          min_freq := 1 } := by
      unfold on_access
      simp only [hk, if_neg hknb]
    rw [heq]
    set nb := (alookup 1 s.freq_keys).getD [] with hnbdef
    refine ⟨?_, ?_, ?_, ?_, ?_, ?_, ?_, ?_⟩
    · intro p hp
      rcases mem_aset _ _ _ p hp with rfl | hp2
      · simp
      · exact h.buckets_ne p hp2
    · exact keys_nodup_aset _ _ _ h.fk_nodup
    · exact keys_nodup_aset _ _ _ h.kf_nodup
    · intro p hp
      rcases mem_aset _ _ _ p hp with rfl | hp2
      · exact nodup_append_singleton hnbnodup hknb
      · exact h.buckets_nodup p hp2
    · intro f b hb j hj
      by_cases hf : f = 1
      · subst hf
        rw [alookup_aset_self] at hb
        obtain rfl := Option.some.inj hb
        rcases List.mem_append.mp hj with hj | hj
        · have hjk : j ≠ k := fun hh => hknb (hh ▸ hj)
          rw [alookup_aset_ne _ _ _ _ hjk]
          cases h1 : alookup 1 s.freq_keys with
          | none =>
            rw [hnbdef, h1] at hj
            simp at hj
          | some b0 =>
            have hjb0 : j ∈ b0 := by
              rw [hnbdef, h1] at hj
              simpa using hj
            exact h.bucket_freq 1 b0 h1 j hjb0
        · simp only [List.mem_singleton] at hj
          subst hj
          rw [alookup_aset_self]
      · rw [alookup_aset_ne _ _ _ _ hf] at hb
        have hj2 := h.bucket_freq f b hb j hj
        have hjk : j ≠ k := by
          intro hh
          rw [hh, hk] at hj2
          exact Option.noConfusion hj2
        rw [alookup_aset_ne _ _ _ _ hjk]
        exact hj2
    · intro j f hj
      by_cases hjk : j = k
      · subst hjk
        rw [alookup_aset_self] at hj
        obtain rfl := Option.some.inj hj
        exact ⟨_, alookup_aset_self _ _ _, by simp⟩
      · rw [alookup_aset_ne _ _ _ _ hjk] at hj
        obtain ⟨b, hb, hjb⟩ := h.freq_bucket j f hj
        by_cases hf : f = 1
        · subst hf
          refine ⟨nb ++ [k], alookup_aset_self _ _ _, ?_⟩
          have hnbb : nb = b := by
            rw [hnbdef, hb]
            rfl
          exact List.mem_append_left _ (hnbb ▸ hjb)
        · refine ⟨b, ?_, hjb⟩
          rw [alookup_aset_ne _ _ _ _ hf]
          exact hb
    · intro j f hj
      by_cases hjk : j = k
      · subst hjk
        rw [alookup_aset_self] at hj
        obtain rfl := Option.some.inj hj
        exact le_refl 1
      · rw [alookup_aset_ne _ _ _ _ hjk] at hj
        exact h.one_le j f hj
    · intro j f hj
      by_cases hjk : j = k
      · subst hjk
        rw [alookup_aset_self] at hj
        obtain rfl := Option.some.inj hj
        exact le_refl 1
      · rw [alookup_aset_ne _ _ _ _ hjk] at hj
        exact h.one_le j f hj
  | some oldFreq =>
    obtain ⟨b0, hb0, hkb0⟩ := h.freq_bucket k oldFreq hk
    have hb0nodup : b0.Nodup := bucket_nodup_of_alookup h hb0
    have hkB' : k ∉ lremove k b0 := not_mem_lremove_self k b0 hb0nodup
    have hbucket : (alookup oldFreq s.freq_keys).getD [] = b0 := by
      rw [hb0]
      rfl
    have hne_freq : oldFreq + 1 ≠ oldFreq := Nat.succ_ne_self oldFreq
    have hfkAnodup :
        ((aset oldFreq (lremove k b0) s.freq_keys).map Prod.fst).Nodup :=
      keys_nodup_aset _ _ _ h.fk_nodup
    -- fk2 below abbreviates the updated freq_keys map before the new-bucket
    -- insertion, in both the bucket-emptied and bucket-kept branches.
    have hfk2other : ∀ f : Nat, f ≠ oldFreq →
        alookup f (if (lremove k b0).isEmpty = true
          then aerase oldFreq (aset oldFreq (lremove k b0) s.freq_keys)
          else aset oldFreq (lremove k b0) s.freq_keys) =
        alookup f s.freq_keys := by
      intro f hf
      by_cases hbe : (lremove k b0).isEmpty = true
      · rw [if_pos hbe, alookup_aerase_ne _ _ _ hf, alookup_aset_ne _ _ _ _ hf]
      · rw [if_neg hbe, alookup_aset_ne _ _ _ _ hf]
    have hfk2old : ∀ b, alookup oldFreq
        (if (lremove k b0).isEmpty = true
          then aerase oldFreq (aset oldFreq (lremove k b0) s.freq_keys)
          else aset oldFreq (lremove k b0) s.freq_keys) = some b →
        b = lremove k b0 ∧ ¬ ((lremove k b0).isEmpty = true) := by
      intro b hb
      by_cases hbe : (lremove k b0).isEmpty = true
      · rw [if_pos hbe, alookup_aerase_self _ _ hfkAnodup] at hb
        exact Option.noConfusion hb
      · rw [if_neg hbe, alookup_aset_self] at hb
        exact ⟨(Option.some.inj hb).symm, hbe⟩
    have hfk2some : ¬ ((lremove k b0).isEmpty = true) →
        alookup oldFreq
          (if (lremove k b0).isEmpty = true
            then aerase oldFreq (aset oldFreq (lremove k b0) s.freq_keys)
            else aset oldFreq (lremove k b0) s.freq_keys) =
          some (lremove k b0) := by
      intro hbe
      rw [if_neg hbe, alookup_aset_self]
    have hfk2mem : ∀ p, p ∈ (if (lremove k b0).isEmpty = true
          then aerase oldFreq (aset oldFreq (lremove k b0) s.freq_keys)
          else aset oldFreq (lremove k b0) s.freq_keys) →
        (p = (oldFreq, lremove k b0) ∧ ¬ ((lremove k b0).isEmpty = true)) ∨
          p ∈ s.freq_keys := by
      intro p hp
      by_cases hbe : (lremove k b0).isEmpty = true
      · rw [if_pos hbe] at hp
        have hp2 := mem_aerase _ _ _ hp
        rcases mem_aset _ _ _ p hp2 with rfl | hp3
        · exfalso
          obtain ⟨v, hv⟩ := alookup_isSome_of_mem hp
          rw [alookup_aerase_self _ _ hfkAnodup] at hv
          exact Option.noConfusion hv
        · exact Or.inr hp3
      · rw [if_neg hbe] at hp
        rcases mem_aset _ _ _ p hp with rfl | hp3
        · exact Or.inl ⟨rfl, hbe⟩
        · exact Or.inr hp3
    have hfk2nodup : ((if (lremove k b0).isEmpty = true
          then aerase oldFreq (aset oldFreq (lremove k b0) s.freq_keys)
          else aset oldFreq (lremove k b0) s.freq_keys).map Prod.fst).Nodup := by
      by_cases hbe : (lremove k b0).isEmpty = true
      · rw [if_pos hbe]
        exact keys_nodup_aerase _ _ hfkAnodup
      · rw [if_neg hbe]
        exact hfkAnodup
    have hlook2 : alookup (oldFreq + 1)
        (if (lremove k b0).isEmpty = true
          then aerase oldFreq (aset oldFreq (lremove k b0) s.freq_keys)
          else aset oldFreq (lremove k b0) s.freq_keys) =
        alookup (oldFreq + 1) s.freq_keys := hfk2other _ hne_freq
    have hkNB : k ∉ (alookup (oldFreq + 1)
        (if (lremove k b0).isEmpty = true
          then aerase oldFreq (aset oldFreq (lremove k b0) s.freq_keys)
          else aset oldFreq (lremove k b0) s.freq_keys)).getD [] := by
      rw [hlook2]
      cases h1 : alookup (oldFreq + 1) s.freq_keys with
      | none => simp
      | some b1 =>
        simp only [Option.getD_some]
        intro hmem
        have h2 := h.bucket_freq _ b1 h1 k hmem
        rw [hk] at h2
        exact absurd (Option.some.inj h2) (by omega)
    have hNBnodup : ((alookup (oldFreq + 1)
        (if (lremove k b0).isEmpty = true
          then aerase oldFreq (aset oldFreq (lremove k b0) s.freq_keys)
          else aset oldFreq (lremove k b0) s.freq_keys)).getD []).Nodup := by
      rw [hlook2]
      cases h1 : alookup (oldFreq + 1) s.freq_keys with
      | none => simp
      | some b1 => simpa using bucket_nodup_of_alookup h h1
    have heq : on_access s k =
        { key_freq := aset k (oldFreq + 1) s.key_freq,
          freq_keys := aset (oldFreq + 1)
            ((alookup (oldFreq + 1)
              (if (lremove k b0).isEmpty = true
                then aerase oldFreq (aset oldFreq (lremove k b0) s.freq_keys)
                else aset oldFreq (lremove k b0) s.freq_keys)).getD [] ++ [k])
            (if (lremove k b0).isEmpty = true
              then aerase oldFreq (aset oldFreq (lremove k b0) s.freq_keys)
              else aset oldFreq (lremove k b0) s.freq_keys),
          min_freq := if (lremove k b0).isEmpty = true ∧ s.min_freq = oldFreq
            then s.min_freq + 1 else s.min_freq } := by
      unfold on_access
      simp only [hk, hbucket, if_neg hkNB]
    rw [heq]
    set fk2 := (if (lremove k b0).isEmpty = true
      then aerase oldFreq (aset oldFreq (lremove k b0) s.freq_keys)
      else aset oldFreq (lremove k b0) s.freq_keys) with hfk2def
    set NB := (alookup (oldFreq + 1) fk2).getD [] with hNBdef
    refine ⟨?_, ?_, ?_, ?_, ?_, ?_, ?_, ?_⟩
    · intro p hp
      rcases mem_aset _ _ _ p hp with rfl | hp2
      · simp
      · rcases hfk2mem p hp2 with ⟨rfl, hbe⟩ | hp3
        · simpa [List.isEmpty_iff] using hbe
        · exact h.buckets_ne p hp3
    · exact keys_nodup_aset _ _ _ hfk2nodup
    · exact keys_nodup_aset _ _ _ h.kf_nodup
    · intro p hp
      rcases mem_aset _ _ _ p hp with rfl | hp2
      · exact nodup_append_singleton hNBnodup hkNB
      · rcases hfk2mem p hp2 with ⟨rfl, _⟩ | hp3
        · exact nodup_lremove _ _ hb0nodup
        · exact h.buckets_nodup p hp3
    · intro f b hb j hj
      by_cases hf : f = oldFreq + 1
      · subst hf
        rw [alookup_aset_self] at hb
        obtain rfl := Option.some.inj hb
        rcases List.mem_append.mp hj with hj | hj
        · have hjk : j ≠ k := fun hh => hkNB (hh ▸ hj)
          rw [alookup_aset_ne _ _ _ _ hjk]
          rw [hNBdef, hlook2] at hj
          cases h1 : alookup (oldFreq + 1) s.freq_keys with
          | none =>
            rw [h1] at hj
            simp at hj
          | some b1 =>
            have hjb1 : j ∈ b1 := by
              rw [h1] at hj
              simpa using hj
            exact h.bucket_freq _ b1 h1 j hjb1
        · simp only [List.mem_singleton] at hj
          subst hj
          rw [alookup_aset_self]
      · rw [alookup_aset_ne _ _ _ _ hf] at hb
        by_cases hfo : f = oldFreq
        · subst hfo
          obtain ⟨rfl, _⟩ := hfk2old b hb
          have hjb0 : j ∈ b0 := mem_of_mem_lremove hj
          have hjk : j ≠ k := fun hh => hkB' (hh ▸ hj)
          rw [alookup_aset_ne _ _ _ _ hjk]
          exact h.bucket_freq _ b0 hb0 j hjb0
        · rw [hfk2def] at hb
          rw [hfk2other f hfo] at hb
          have hj2 := h.bucket_freq f b hb j hj
          have hjk : j ≠ k := by
            intro hh
            rw [hh, hk] at hj2
            exact hfo (Option.some.inj hj2).symm
          rw [alookup_aset_ne _ _ _ _ hjk]
          exact hj2
    · intro j f hj
      by_cases hjk : j = k
      · subst hjk
        rw [alookup_aset_self] at hj
        obtain rfl := Option.some.inj hj
        exact ⟨_, alookup_aset_self _ _ _, by simp⟩
      · rw [alookup_aset_ne _ _ _ _ hjk] at hj
        obtain ⟨b, hb, hjb⟩ := h.freq_bucket j f hj
        by_cases hf : f = oldFreq + 1
        · subst hf
          refine ⟨NB ++ [k], alookup_aset_self _ _ _, ?_⟩
          have hNBb : NB = b := by
            rw [hNBdef, hlook2, hb]
            rfl
          exact List.mem_append_left _ (hNBb ▸ hjb)
        · by_cases hfo : f = oldFreq
          · subst hfo
            rw [hb0] at hb
            obtain rfl := Option.some.inj hb
            have hjB' : j ∈ lremove k b0 :=
              mem_lremove_of_mem hjb (fun hh => hjk hh)
            have hbe : ¬ ((lremove k b0).isEmpty = true) := by
              intro hbe
              rw [List.isEmpty_iff] at hbe
              rw [hbe] at hjB'
              simp at hjB'
            refine ⟨lremove k b0, ?_, hjB'⟩
            rw [alookup_aset_ne _ _ _ _ hf, hfk2def]
            exact hfk2some hbe
          · refine ⟨b, ?_, hjb⟩
            rw [alookup_aset_ne _ _ _ _ hf, hfk2def, hfk2other f hfo]
            exact hb
    · intro j f hj
      by_cases hcond : (lremove k b0).isEmpty = true ∧ s.min_freq = oldFreq
      · obtain ⟨hbe1, hmf1⟩ := hcond
        rw [if_pos ⟨hbe1, hmf1⟩]
        dsimp only
        by_cases hjk : j = k
        · subst hjk
          rw [alookup_aset_self] at hj
          obtain rfl := Option.some.inj hj
          omega
        · rw [alookup_aset_ne _ _ _ _ hjk] at hj
          have hmle := h.min_le j f hj
          have hfne : f ≠ oldFreq := by
            intro hfe
            rw [hfe] at hj
            obtain ⟨b, hb, hjb⟩ := h.freq_bucket j oldFreq hj
            rw [hb0] at hb
            obtain rfl := Option.some.inj hb
            have hjB' : j ∈ lremove k b0 :=
              mem_lremove_of_mem hjb (fun hh => hjk hh)
            rw [List.isEmpty_iff] at hbe1
            rw [hbe1] at hjB'
            simp at hjB'
          omega
      · rw [if_neg hcond]
        dsimp only
        by_cases hjk : j = k
        · subst hjk
          rw [alookup_aset_self] at hj
          obtain rfl := Option.some.inj hj
          have := h.min_le j oldFreq hk
          omega
        · rw [alookup_aset_ne _ _ _ _ hjk] at hj
          exact h.min_le j f hj
    · intro j f hj
      by_cases hjk : j = k
      · subst hjk
        rw [alookup_aset_self] at hj
        obtain rfl := Option.some.inj hj
        omega
      · rw [alookup_aset_ne _ _ _ _ hjk] at hj
        exact h.one_le j f hj

theorem wf_evict (s s' : LFUState) (r : Option String) (h : WF s)
    (he : evict s = some (r, s')) : WF s' := by
  unfold evict at he
  by_cases hkfe : s.key_freq.isEmpty = true
  · rw [if_pos hkfe] at he
    have h2 := Option.some.inj he
    have hs : s = s' := congrArg Prod.snd h2
    rw [← hs]
    exact h
  · rw [if_neg hkfe] at he
    cases hbk : (alookup s.min_freq s.freq_keys).getD [] with
    | nil =>
      rw [hbk] at he
      exact Option.noConfusion he
    | cons victim rest =>
      rw [hbk] at he
      have h2 := Option.some.inj he
      have hs' : s' =
          { key_freq := aerase victim s.key_freq,
            freq_keys := if rest.isEmpty = true
              then aerase s.min_freq (aset s.min_freq rest s.freq_keys)
              else aset s.min_freq rest s.freq_keys,
            min_freq := s.min_freq } := (congrArg Prod.snd h2).symm
      have hbm : alookup s.min_freq s.freq_keys = some (victim :: rest) := by
        cases h1 : alookup s.min_freq s.freq_keys with
        | none =>
          rw [h1] at hbk
          simp at hbk
        | some b =>
          rw [h1] at hbk
          simp only [Option.getD_some] at hbk
          rw [hbk]
      have hbnodup : (victim :: rest).Nodup := bucket_nodup_of_alookup h hbm
      have hvr : victim ∉ rest := (List.nodup_cons.mp hbnodup).1
      have hrestnodup : rest.Nodup := (List.nodup_cons.mp hbnodup).2
      have hvk : alookup victim s.key_freq = some s.min_freq :=
        h.bucket_freq _ _ hbm victim (List.mem_cons_self _ _)
      have hfkAnodup :
          ((aset s.min_freq rest s.freq_keys).map Prod.fst).Nodup :=
        keys_nodup_aset _ _ _ h.fk_nodup
      have hfk2other : ∀ f : Nat, f ≠ s.min_freq →
          alookup f (if rest.isEmpty = true
            then aerase s.min_freq (aset s.min_freq rest s.freq_keys)
            else aset s.min_freq rest s.freq_keys) =
          alookup f s.freq_keys := by
        intro f hf
        by_cases hbe : rest.isEmpty = true
        · rw [if_pos hbe, alookup_aerase_ne _ _ _ hf,
            alookup_aset_ne _ _ _ _ hf]
        · rw [if_neg hbe, alookup_aset_ne _ _ _ _ hf]
      have hfk2old : ∀ b, alookup s.min_freq
          (if rest.isEmpty = true
            then aerase s.min_freq (aset s.min_freq rest s.freq_keys)
            else aset s.min_freq rest s.freq_keys) = some b →
          b = rest ∧ ¬ (rest.isEmpty = true) := by
        intro b hb
        by_cases hbe : rest.isEmpty = true
        · rw [if_pos hbe, alookup_aerase_self _ _ hfkAnodup] at hb
          exact Option.noConfusion hb
        · rw [if_neg hbe, alookup_aset_self] at hb
          exact ⟨(Option.some.inj hb).symm, hbe⟩
      have hfk2some : ¬ (rest.isEmpty = true) →
          alookup s.min_freq
            (if rest.isEmpty = true
              then aerase s.min_freq (aset s.min_freq rest s.freq_keys)
              else aset s.min_freq rest s.freq_keys) = some rest := by
        intro hbe
        rw [if_neg hbe, alookup_aset_self]
      have hfk2mem : ∀ p, p ∈ (if rest.isEmpty = true
            then aerase s.min_freq (aset s.min_freq rest s.freq_keys)
            else aset s.min_freq rest s.freq_keys) →
          (p = (s.min_freq, rest) ∧ ¬ (rest.isEmpty = true)) ∨
            p ∈ s.freq_keys := by
        intro p hp
        by_cases hbe : rest.isEmpty = true
        · rw [if_pos hbe] at hp
          have hp2 := mem_aerase _ _ _ hp
          rcases mem_aset _ _ _ p hp2 with rfl | hp3
          · exfalso
            obtain ⟨v, hv⟩ := alookup_isSome_of_mem hp
            rw [alookup_aerase_self _ _ hfkAnodup] at hv
            exact Option.noConfusion hv
          · exact Or.inr hp3
        · rw [if_neg hbe] at hp
          rcases mem_aset _ _ _ p hp with rfl | hp3
          · exact Or.inl ⟨rfl, hbe⟩
          · exact Or.inr hp3
      have hfk2nodup : ((if rest.isEmpty = true
            then aerase s.min_freq (aset s.min_freq rest s.freq_keys)
            else aset s.min_freq rest s.freq_keys).map Prod.fst).Nodup := by
        by_cases hbe : rest.isEmpty = true
        · rw [if_pos hbe]
          exact keys_nodup_aerase _ _ hfkAnodup
        · rw [if_neg hbe]
          exact hfkAnodup
      rw [hs']
      refine ⟨?_, ?_, ?_, ?_, ?_, ?_, ?_, ?_⟩
      · intro p hp
        rcases hfk2mem p hp with ⟨rfl, hbe⟩ | hp3
        · simpa [List.isEmpty_iff] using hbe
        · exact h.buckets_ne p hp3
      · exact hfk2nodup
      · exact keys_nodup_aerase _ _ h.kf_nodup
      · intro p hp
        rcases hfk2mem p hp with ⟨rfl, _⟩ | hp3
        · exact hrestnodup
        · exact h.buckets_nodup p hp3
      · intro f b hb j hj
        by_cases hf : f = s.min_freq
        · subst hf
          obtain ⟨rfl, _⟩ := hfk2old b hb
          have hjk : j ≠ victim := fun hh => hvr (hh ▸ hj)
          rw [alookup_aerase_ne _ _ _ hjk]
          exact h.bucket_freq _ _ hbm j (List.mem_cons_of_mem _ hj)
        · rw [hfk2other f hf] at hb
          have hj2 := h.bucket_freq f b hb j hj
          have hjk : j ≠ victim := by
            intro hh
            rw [hh, hvk] at hj2
            exact hf (Option.some.inj hj2).symm
          rw [alookup_aerase_ne _ _ _ hjk]
          exact hj2
      · intro j f hj
        have hjk : j ≠ victim := by
          intro hh
          rw [hh, alookup_aerase_self _ _ h.kf_nodup] at hj
          exact Option.noConfusion hj
        rw [alookup_aerase_ne _ _ _ hjk] at hj
        obtain ⟨b, hb, hjb⟩ := h.freq_bucket j f hj
        by_cases hf : f = s.min_freq
        · subst hf
          rw [hbm] at hb
          obtain rfl := Option.some.inj hb
          have hjrest : j ∈ rest := by
            rcases List.mem_cons.mp hjb with rfl | hjr
            · exact absurd rfl hjk
            · exact hjr
          have hbe : ¬ (rest.isEmpty = true) := by
            intro hbe
            rw [List.isEmpty_iff] at hbe
            rw [hbe] at hjrest
            simp at hjrest
          exact ⟨rest, hfk2some hbe, hjrest⟩
        · refine ⟨b, ?_, hjb⟩
          rw [hfk2other f hf]
          exact hb
      · intro j f hj
        have hjk : j ≠ victim := by
          intro hh
          rw [hh, alookup_aerase_self _ _ h.kf_nodup] at hj
          exact Option.noConfusion hj
        rw [alookup_aerase_ne _ _ _ hjk] at hj
        exact h.min_le j f hj
      · intro j f hj
        have hjk : j ≠ victim := by
          intro hh
          rw [hh, alookup_aerase_self _ _ h.kf_nodup] at hj
          exact Option.noConfusion hj
        rw [alookup_aerase_ne _ _ _ hjk] at hj
        exact h.one_le j f hj

theorem wf_reach (s : LFUState) (h : Reach s) : WF s := by
  induction h with
  | start => exact wf_init
  | step_access s k _ ih => exact wf_on_access s k ih
  | step_evict s s' r _ he ih => exact wf_evict s s' r ih he

end LFUPolicy

/-! ## Claim theorems -/

/-- C1: the claim says a node's storage never exceeds its configured capacity
and that inserting a new key into a full node removes a victim first. The code
guards the removal with `if victim:`, which is false for a falsy key such as
`""`: on a capacity-1 node, `put("", 1)` followed by `put("x", 2)` evicts `""`
from the policy but leaves it in storage, so storage holds 2 entries against
capacity 1. -/
theorem capacity_exceeded_by_falsy_victim :
    falsyVictimCache.capacity = 1 ∧ falsyVictimCache.storage.length = 2 := by
  decide

/-- C2: the claim says storage and the eviction policy always agree on the
resident key set. After `put("", 1); put("x", 2)` on a capacity-1 LRU node,
the key `""` is still resident in storage (the falsy victim was not deleted)
but the policy no longer tracks it. -/
theorem storage_policy_disagree_on_falsy_victim :
    alookup "" falsyVictimCache.storage = some 1 ∧
      "" ∉ falsyVictimCache.order := by
  decide

/-- C3: for every interleaving of `write` calls and worker flush steps on a
fresh safe write-back writer, once `close()` returns the database's `set` log
is exactly the sequence of written orders, in the order the `write` calls were
made. -/
theorem write_back_close_delivers_all_in_order (K V : Type)
    (ops : List (SafeWriteBackWriter.Op K V)) :
    (SafeWriteBackWriter.close (SafeWriteBackWriter.runOps ops ⟨[], []⟩)).db =
      SafeWriteBackWriter.writesOf ops := by
  have h := SafeWriteBackWriter.db_append_queue_runOps ops ⟨[], []⟩
  simpa [SafeWriteBackWriter.close] using h

/-- C4: on a node with a write-through writer, if the database `set` raises
during `put(key, value)` then `put` propagates exactly that error and the
in-memory storage is unchanged: a subsequent `get` observes the pre-`put`
state. -/
theorem write_through_error_aborts_update {V E : Type}
    (c : RobustCache V) (dbSet : String → V → Except E Unit)
    (k : String) (v : V) (e : E) (h : dbSet k v = .error e) :
    c.putWT dbSet k v = (.error e, c) ∧
      ((c.putWT dbSet k v).2).get k = c.get k := by
  have hw : WriteThroughWriter.write dbSet k v = .error e := by
    simp [WriteThroughWriter.write, h]
  constructor
  · simp [RobustCache.putWT, hw]
  · simp [RobustCache.putWT, hw]

/-- Witness for C4 at a concrete node: key `"k"` holds 1, the database rejects
every `set` with error 7, and `put "k" 5` fails with 7 leaving the node
unchanged. -/
theorem write_through_error_aborts_update_witness :
    RobustCache.putWT (fun (_ : String) (_ : Nat) => (.error 7 : Except Nat Unit))
        (⟨2, [("k", 1)], ["k"]⟩ : RobustCache Nat) "k" 5
      = (.error 7, (⟨2, [("k", 1)], ["k"]⟩ : RobustCache Nat)) ∧
    ((RobustCache.putWT (fun (_ : String) (_ : Nat) => (.error 7 : Except Nat Unit))
        (⟨2, [("k", 1)], ["k"]⟩ : RobustCache Nat) "k" 5).2).get "k"
      = (⟨2, [("k", 1)], ["k"]⟩ : RobustCache Nat).get "k" :=
  write_through_error_aborts_update _ _ _ _ _ rfl

/-- C5: when `n ≥ 1` callers hit `do` on the same key during one in-flight
window, starting from a coalescer whose maps do not yet know the key (a fresh
node), exactly one caller becomes the leader — so the loader thunk is invoked
exactly once — and after the leader publishes, every follower observes
exactly the leader's outcome (the same value, or the same error). -/
theorem coalescer_single_flight {K V E : Type} [DecidableEq K]
    (s0 : CoState K V E) (k : K) (outcome : Except E (Option V)) (n : Nat)
    (hn : 1 ≤ n) (ha : k ∉ s0.active)
    (hr : alookup k s0.results = none) (he : alookup k s0.errors = none) :
    (RequestCoalescer.arrivals s0 k n).2 = 1 ∧
      RequestCoalescer.followerRead
        (RequestCoalescer.publish (RequestCoalescer.arrivals s0 k n).1 k
          outcome) k = outcome := by
  obtain ⟨m, rfl⟩ : ∃ m, n = m + 1 := ⟨n - 1, (Nat.succ_pred_eq_of_pos hn).symm⟩
  have h1 : RequestCoalescer.arrive s0 k =
      ({ s0 with active := k :: s0.active }, true) := by
    simp [RequestCoalescer.arrive, ha]
  have h2 : RequestCoalescer.arrivals s0 k (m + 1) =
      ({ s0 with active := k :: s0.active }, 1) := by
    simp only [RequestCoalescer.arrivals, h1]
    rw [RequestCoalescer.arrivals_of_mem _ _ (List.mem_cons_self _ _) m]
    simp
  refine ⟨by rw [h2], ?_⟩
  rw [h2]
  cases outcome with
  | ok v =>
    simp [RequestCoalescer.publish, RequestCoalescer.followerRead, he,
      alookup_aset_self]
  | error e =>
    simp [RequestCoalescer.publish, RequestCoalescer.followerRead,
      alookup_aset_self]

/-- Witness for C5: three concurrent callers on key 0 of a fresh coalescer
with leader outcome `ok (some 5)`: one thunk invocation, followers read
`ok (some 5)`. -/
theorem coalescer_single_flight_witness :
    (RequestCoalescer.arrivals (⟨[], [], []⟩ : CoState Nat Nat Nat) 0 3).2 = 1 ∧
      RequestCoalescer.followerRead
        (RequestCoalescer.publish
          (RequestCoalescer.arrivals (⟨[], [], []⟩ : CoState Nat Nat Nat) 0 3).1
          0 (.ok (some 5))) 0 = .ok (some 5) :=
  coalescer_single_flight _ 0 _ 3 (by decide) (by simp) rfl rfl

/-- C7: the claim says a `do` call arriving after the previous in-flight
record was removed starts a fresh call whose followers observe only the new
invocation's outcome. In the code the `errors` map is never cleared: after a
first window on key 0 failed with error 1, the record is gone (`active` is
empty), a second window's leader does run its thunk afresh (it becomes the
leader) and succeeds with the value 2 — yet a follower of that second window
re-raises the stale error 1 instead of observing `ok (some 2)`. -/
theorem stale_error_leaks_into_fresh_window :
    coFirstWindow.active = [] ∧
      (RequestCoalescer.arrive coFirstWindow 0).2 = true ∧
      RequestCoalescer.followerRead coSecondWindow 0 = .error 1 ∧
      RequestCoalescer.followerRead coSecondWindow 0 ≠ .ok (some 2) :=
  ⟨rfl, rfl, rfl, fun h => Except.noConfusion h⟩

/-- C8: `get_node` returns absent exactly on an empty ring, and otherwise the
label of the first ring position strictly greater than `H(key)` in the sorted
position list, wrapping to the smallest position when none is greater — i.e.
it coincides with the spec-side description `get_node_spec` on every
well-formed ring state (MD5 abstracted as `H`). -/
theorem get_node_matches_spec (H : String → Nat) (r : ConsistentHashing)
    (key : String) (h : r.WF) :
    ConsistentHashing.get_node H r key =
      ConsistentHashing.get_node_spec H r key := by
  obtain ⟨hs, hiff⟩ := h
  by_cases hr : r.ring.isEmpty
  · have h2 : r.sorted_keys.isEmpty := hiff.mp hr
    simp [ConsistentHashing.get_node, ConsistentHashing.get_node_spec, hr, h2]
  · have hsne : ¬ (r.sorted_keys.isEmpty = true) := fun hh => hr (hiff.mpr hh)
    rcases hd : (r.sorted_keys.dropWhile (fun y => y ≤ H key)).head? with _ | pos
    · have hdnil : r.sorted_keys.dropWhile (fun y => y ≤ H key) = [] :=
        List.head?_eq_none_iff.mp hd
      have ht : r.sorted_keys.takeWhile (fun y => y ≤ H key) = r.sorted_keys := by
        have hsplit := List.takeWhile_append_dropWhile
          (fun y => y ≤ H key) r.sorted_keys
        rw [hdnil, List.append_nil] at hsplit
        exact hsplit
      have hfil : (r.sorted_keys.filter (fun y => H key < y)).head? = none := by
        rw [← dropWhile_le_head_eq_filter_lt_head (H key) r.sorted_keys, hd]
      simp only [ConsistentHashing.get_node, ConsistentHashing.get_node_spec,
        ConsistentHashing.bisect, if_neg hr, if_neg hsne]
      rw [ht, if_pos rfl, hfil, min?_eq_head?_of_pairwise_le _ hs]
      cases hsk : r.sorted_keys with
      | nil => rw [hsk] at hsne; simp at hsne
      | cons m t => simp
    · have hlen : (r.sorted_keys.takeWhile (fun y => y ≤ H key)).length ≠
          r.sorted_keys.length := by
        intro heq
        have hsplit := List.takeWhile_append_dropWhile
          (fun y => y ≤ H key) r.sorted_keys
        have hlen2 := congrArg List.length hsplit
        rw [List.length_append, heq] at hlen2
        have h0 : (r.sorted_keys.dropWhile (fun y => y ≤ H key)).length = 0 := by
          omega
        rw [List.eq_nil_of_length_eq_zero h0] at hd
        exact Option.noConfusion hd
      have hget : r.sorted_keys.get?
          ((r.sorted_keys.takeWhile (fun y => y ≤ H key)).length) = some pos := by
        rw [get?_takeWhile_length]
        exact hd
      have hfil : (r.sorted_keys.filter (fun y => H key < y)).head? = some pos := by
        rw [← dropWhile_le_head_eq_filter_lt_head (H key) r.sorted_keys]
        exact hd
      simp only [ConsistentHashing.get_node, ConsistentHashing.get_node_spec,
        ConsistentHashing.bisect, if_neg hr, if_neg hsne]
      rw [if_neg hlen, hget, hfil]

/-- Witness for C8 on a concrete two-position ring: label lookup through
`get_node` agrees with the spec-side description. -/
theorem get_node_matches_spec_witness :
    ConsistentHashing.get_node (fun s => s.length)
        ⟨[(10, "A"), (20, "B")], [10, 20]⟩ "twelve chars" =
      ConsistentHashing.get_node_spec (fun s => s.length)
        ⟨[(10, "A"), (20, "B")], [10, 20]⟩ "twelve chars" :=
  get_node_matches_spec _ _ _ ⟨by decide, by decide⟩

/-- C6 counterexample: the claim says `min_freq` always equals the minimum of
`key_freq.values()` when `key_freq` is non-empty. After `on_access a;
on_access a; on_access b; evict()` (which evicts b) the reachable state has
`key_freq = {a: 2}` — minimum 2 — while `min_freq` is still 1, because
`evict` never recomputes `min_freq` after emptying the minimum bucket. -/
theorem lfu_min_freq_stale_after_evict :
    LFUPolicy.Reach lfuCex ∧ lfuCex.key_freq ≠ [] ∧
      (LFUPolicy.freqValues lfuCex).min? = some 2 ∧ lfuCex.min_freq = 1 := by
  refine ⟨?_, by decide, by decide, rfl⟩
  have h1 : LFUPolicy.Reach lfuCexPre :=
    LFUPolicy.Reach.step_access _ "b"
      (LFUPolicy.Reach.step_access _ "a"
        (LFUPolicy.Reach.step_access _ "a" LFUPolicy.Reach.start))
  exact LFUPolicy.Reach.step_evict lfuCexPre lfuCex (some "b") h1 (by decide)

/-- C6 amended: in every LFU state reachable by completed operations, every
bucket present in `freq_keys` is non-empty, `min_freq` is a lower bound of
`key_freq.values()`, and whenever the `min_freq` bucket is present in
`freq_keys`, `min_freq` is attained — hence equals the minimum. (After an
`evict` that empties the minimum bucket, `min_freq` may undershoot the true
minimum until the next new-key insertion resets it; an `evict` in such a
state raises `KeyError` instead of completing.) -/
theorem lfu_min_freq_invariant (s : LFUState) (h : LFUPolicy.Reach s) :
    (∀ p ∈ s.freq_keys, p.2 ≠ []) ∧
    (∀ k f, alookup k s.key_freq = some f → s.min_freq ≤ f) ∧
    (∀ b, alookup s.min_freq s.freq_keys = some b →
      ∃ k, alookup k s.key_freq = some s.min_freq) := by
  have hw := LFUPolicy.wf_reach s h
  refine ⟨hw.buckets_ne, hw.min_le, ?_⟩
  intro b hb
  have hne := hw.buckets_ne (s.min_freq, b) (mem_of_alookup_eq_some hb)
  cases b with
  | nil => exact absurd rfl hne
  | cons x t =>
    exact ⟨x, hw.bucket_freq _ _ hb x (List.mem_cons_self _ _)⟩

/-- Witness for the amended C6 at the reachable state after one access of
`"a"`. -/
theorem lfu_min_freq_invariant_witness :
    (∀ p ∈ (LFUPolicy.on_access LFUPolicy.init "a").freq_keys, p.2 ≠ []) ∧
    (∀ k f, alookup k (LFUPolicy.on_access LFUPolicy.init "a").key_freq =
      some f → (LFUPolicy.on_access LFUPolicy.init "a").min_freq ≤ f) ∧
    (∀ b, alookup (LFUPolicy.on_access LFUPolicy.init "a").min_freq
        (LFUPolicy.on_access LFUPolicy.init "a").freq_keys = some b →
      ∃ k, alookup k (LFUPolicy.on_access LFUPolicy.init "a").key_freq =
        some (LFUPolicy.on_access LFUPolicy.init "a").min_freq) :=
  lfu_min_freq_invariant _
    (LFUPolicy.Reach.step_access _ "a" LFUPolicy.Reach.start)

/-- C9 counterexample: the claim says `on_access` is idempotent for both
policies. For LFU a second `on_access` of the same key increments its
frequency again: from a fresh policy, accessing `"a"` twice yields
frequency 2 and `min_freq` 2, not the state after a single access. -/
theorem lfu_on_access_not_idempotent :
    LFUPolicy.on_access (LFUPolicy.on_access LFUPolicy.init "a") "a" ≠
      LFUPolicy.on_access LFUPolicy.init "a" := by
  decide

/-- C9 amended: for the LRU policy `on_access` is idempotent — on any
duplicate-free `order` list (an invariant of every reachable LRU state),
applying `on_access k` twice equals applying it once. (For LFU the claim
fails: `on_access` deliberately counts accesses.) -/
theorem lru_on_access_idempotent (order : List String) (k : String)
    (h : order.Nodup) :
    LRUPolicy.on_access (LRUPolicy.on_access order k) k =
      LRUPolicy.on_access order k := by
  have key : ∀ u : List String, k ∉ u →
      LRUPolicy.on_access (u ++ [k]) k = u ++ [k] := by
    intro u hk
    unfold LRUPolicy.on_access
    rw [if_pos (by simp : k ∈ u ++ [k]), lremove_append_right k u hk]
  by_cases hmem : k ∈ order
  · have h1 : LRUPolicy.on_access order k = lremove k order ++ [k] := by
      unfold LRUPolicy.on_access
      rw [if_pos hmem]
    rw [h1]
    exact key _ (not_mem_lremove_self k order h)
  · have h1 : LRUPolicy.on_access order k = order ++ [k] := by
      unfold LRUPolicy.on_access
      rw [if_neg hmem]
    rw [h1]
    exact key _ hmem

/-- Witness for the amended C9: a concrete duplicate-free LRU state. -/
theorem lru_on_access_idempotent_witness :
    LRUPolicy.on_access (LRUPolicy.on_access ["b"] "a") "a" =
      LRUPolicy.on_access ["b"] "a" :=
  lru_on_access_idempotent ["b"] "a" (by decide)

/-- C10: `delete(key)` on both provided writers is `pass`: it returns
normally, issues no database call, and leaves the writer's state — for
write-back including its pending queue, for write-through the `set`-call
log — unchanged. -/
theorem writer_delete_noop (K V E : Type) :
    (∀ (s : WbState K V) (k : K),
        SafeWriteBackWriter.delete s k = (.ok (), s)) ∧
    (∀ (dbLog : List (String × V)) (k : String),
        WriteThroughWriter.delete (E := E) dbLog k = (.ok (), dbLog)) :=
  ⟨fun _ _ => rfl, fun _ _ => rfl⟩

end DCache
